import Mathlib

set_option maxRecDepth 8000

/-!
Verification of the transform-domain watermark codec (media-seal).

The definitions below are a shallow embedding of `watermark/audio_watermark.py`
and `watermark/video_watermark.py`.  Real-valued samples and coefficients are
modelled as rationals; NumPy arrays become lists; the frequency transforms
(scipy dct/idct, pywt wavedec/waverec), which are external collaborators, are
passed in as explicit function parameters so the repository's own loops are
modelled exactly.
-/

namespace MediaSeal

/-- Frame length used by AudioWatermark (self.frame_length = 2048). -/
def frameLength : ℕ := 2048

/-- Hop length used by AudioWatermark (self.hop_length = 512). -/
def hopLength : ℕ := 512

/-- LSB-first binary digits of a natural number, with explicit fuel so the
definition is structural (fuel n is enough since the binary length of n is
at most n). -/
def natBitsAux : ℕ → ℕ → List Bool
  | 0, _ => []
  | _ + 1, 0 => []
  | f + 1, n + 1 => (decide ((n + 1) % 2 = 1)) :: natBitsAux f ((n + 1) / 2)

/-- Python's format(n, "08b"): the binary digits of n, most significant bit
first, left-padded with zeros to a minimum width of 8. -/
def format08b (n : ℕ) : List Bool :=
  List.replicate (8 - ((natBitsAux n n).reverse).length) false ++ (natBitsAux n n).reverse

/-- AudioWatermark._string_to_binary: "".join(format(ord(char), "08b") for char
in text), as a list of bits.  Note this takes ord of each code point, it does
not UTF-8 encode. -/
def string_to_binary (text : String) : List Bool :=
  (text.data.map (fun c => format08b c.toNat)).flatten

/-- Value of a bit list read most-significant-bit first (int(byte, 2)). -/
def bitsToNat (bs : List Bool) : ℕ :=
  bs.foldl (fun acc b => 2 * acc + (if b then 1 else 0)) 0

/-- Truncation of a bit list to a whole number of bytes, as performed by
AudioWatermark._binary_to_string before grouping. -/
def truncate8 (bits : List Bool) : List Bool :=
  bits.take (bits.length - bits.length % 8)

/-- AudioWatermark._binary_to_string: truncate the bit list to a multiple of 8,
then map each 8-bit group, most significant bit first, to chr of its value. -/
def binary_to_string (bits : List Bool) : String :=
  String.mk ((List.range ((truncate8 bits).length / 8)).map
    (fun i => Char.ofNat (bitsToNat (((truncate8 bits).drop (8 * i)).take 8))))

/-- librosa.util.frame(audio, frame_length, hop_length): frame i is the slice
audio[i*hop : i*hop + frameLength], for i = 0 .. (n - frameLength) // hop.
librosa requires n >= frameLength (it raises otherwise), so theorems about the
pipeline carry that hypothesis. -/
def frame_signal (audio : List ℚ) : List (List ℚ) :=
  (List.range ((audio.length - frameLength) / hopLength + 1)).map
    (fun i => (audio.drop (i * hopLength)).take frameLength)

/-- The inner loop of AudioWatermark._embed_dct_watermark on one frame's DCT
coefficient vector: writes bits of wm, starting at bit index start, into the
middle-frequency band [L/4, 3L/4), consuming min(3L/4 - L/4, len(wm) - start)
bits; a coefficient carrying bit b becomes c + alpha*|c|*pn[i] when b = 1 and
c - alpha*|c|*pn[i] when b = 0.  Each loop iteration touches a distinct index,
so the loop is the positional map below. -/
def embed_dct_frame (coeffs : List ℚ) (wm : List Bool) (pn : List ℚ)
    (alpha : ℚ) (start : ℕ) : List ℚ :=
  (List.range coeffs.length).map (fun j =>
    let c := coeffs.getD j 0
    if coeffs.length / 4 ≤ j ∧
        j < coeffs.length / 4 +
          min (3 * coeffs.length / 4 - coeffs.length / 4) (wm.length - start) then
      (if wm.getD (start + (j - coeffs.length / 4)) false then
        c + alpha * |c| * pn.getD (start + (j - coeffs.length / 4)) 0
      else
        c - alpha * |c| * pn.getD (start + (j - coeffs.length / 4)) 0)
    else c)

/-- Number of watermark bits the frame loop consumes from one coefficient
vector of length L when start bits have already been consumed. -/
def frameConsumed (L wmLen start : ℕ) : ℕ :=
  min (3 * L / 4 - L / 4) (wmLen - start)

/-- The inner loop of AudioWatermark._extract_dct_watermark on one frame's DCT
coefficient vector: bit start+t is read from coefficient L/4 + t as
1 if coeff * pn[start+t] > 0 else 0. -/
def extract_frame (coeffs : List ℚ) (pn : List ℚ) (wmLen start : ℕ) : List Bool :=
  (List.range (frameConsumed coeffs.length wmLen start)).map
    (fun t => decide (coeffs.getD (coeffs.length / 4 + t) 0 * pn.getD (start + t) 0 > 0))

/-- The frame loop of _embed_dct_watermark: each frame is transformed by tf
(scipy dct), perturbed, and inverse-transformed by itf (scipy idct); once all
watermark bits are consumed the remaining frames are passed through unchanged
(the loop breaks, and watermarked_frames started as frames.copy()). -/
def process_frames (tf itf : List ℚ → List ℚ) (frames : List (List ℚ))
    (wm : List Bool) (pn : List ℚ) (alpha : ℚ) : List (List ℚ) :=
  (frames.foldl (fun (acc : List (List ℚ) × ℕ) frame =>
    if wm.length ≤ acc.2 then (acc.1 ++ [frame], acc.2)
    else
      let coeffs := tf frame
      (acc.1 ++ [itf (embed_dct_frame coeffs wm pn alpha acc.2)],
       acc.2 + frameConsumed coeffs.length wm.length acc.2))
    ([], 0)).1

/-- Reconstruction loop of _embed_dct_watermark: watermarked_audio starts as
zeros of the input length, and frame i is added at offset i*hop, clipped to the
signal end. -/
def overlap_add (n : ℕ) (framesW : List (List ℚ)) : List ℚ :=
  (List.range n).map (fun t =>
    ((List.range framesW.length).map (fun i =>
      if i * hopLength ≤ t ∧ t < i * hopLength + (framesW.getD i []).length then
        (framesW.getD i []).getD (t - i * hopLength) 0
      else 0)).sum)

/-- AudioWatermark._embed_dct_watermark with the external scipy dct/idct passed
in as tf/itf and the pseudorandom carrier passed in as pn (the code derives pn
deterministically from the password; see generate_pseudorandom_sequence). -/
def embed_dct_watermark (tf itf : List ℚ → List ℚ) (audio : List ℚ)
    (wm : List Bool) (pn : List ℚ) (alpha : ℚ) : List ℚ :=
  overlap_add audio.length (process_frames tf itf (frame_signal audio) wm pn alpha)

/-- AudioWatermark._extract_dct_watermark: extracted bits start as
np.zeros(wmLen); frames fill them in order through the sign-of-correlation
test until wmLen bits are produced or frames run out (remaining bits keep
their initial value 0). -/
def extract_bits_raw (tf : List ℚ → List ℚ) (audio : List ℚ)
    (wmLen : ℕ) (pn : List ℚ) : List Bool :=
  (frame_signal audio).foldl (fun acc frame =>
    if wmLen ≤ acc.length then acc
    else acc ++ extract_frame (tf frame) pn wmLen acc.length) []

/-- Filled extraction result: np.zeros(wmLen) keeps the positions no frame
reached at their initial value 0. -/
def extract_dct_watermark (tf : List ℚ → List ℚ) (audio : List ℚ)
    (wmLen : ℕ) (pn : List ℚ) : List Bool :=
  extract_bits_raw tf audio wmLen pn ++
    List.replicate (wmLen - (extract_bits_raw tf audio wmLen pn).length) false

/-- The round trip of claim C1: embed the bits of s into audio with the DCT
spread-spectrum method, then immediately extract 8*len(s) bits from the
watermarked buffer with the same carrier and decode them. -/
def dct_roundtrip (tf itf : List ℚ → List ℚ) (audio : List ℚ) (s : String)
    (alpha : ℚ) (pn : List ℚ) : String :=
  binary_to_string (extract_dct_watermark tf
    (embed_dct_watermark tf itf audio (string_to_binary s) pn alpha)
    (8 * s.length) pn)

/-- The embedding loop of AudioWatermark._embed_dwt_watermark on the selected
coefficient vector d (the code selects coeffs[1]): for i < min(len wm, len d),
d[i] becomes d[i] + alpha*|d[i]|*pn[i] when wm[i] = 1 and d[i] - alpha*|d[i]|*pn[i]
when wm[i] = 0. -/
def dwt_modify (d : List ℚ) (wm : List Bool) (alpha : ℚ) (pn : List ℚ) : List ℚ :=
  (List.range d.length).map (fun i =>
    if i < wm.length then
      (if wm.getD i false then d.getD i 0 + alpha * |d.getD i 0| * pn.getD i 0
       else d.getD i 0 - alpha * |d.getD i 0| * pn.getD i 0)
    else d.getD i 0)

/-- The coefficient-level part of _embed_dwt_watermark: pywt.wavedec returns
the list [cA4, cD4, cD3, cD2, cD1]; the code takes detail_coeffs = coeffs[1],
runs the embedding loop on it, and stores it back at index 1.  All other
entries are untouched. -/
def embed_dwt_coeffs (coeffs : List (List ℚ)) (wm : List Bool) (alpha : ℚ)
    (pn : List ℚ) : List (List ℚ) :=
  coeffs.set 1 (dwt_modify (coeffs.getD 1 []) wm alpha pn)

/-- Length normalization at the end of _embed_dwt_watermark: the
pywt.waverec output is truncated when longer than the input and zero-padded
when shorter. -/
def length_normalize (w : List ℚ) (n : ℕ) : List ℚ :=
  if n < w.length then w.take n
  else if w.length < n then w ++ List.replicate (n - w.length) 0
  else w

/-- AudioWatermark._embed_dwt_watermark with the external pywt wavedec/waverec
passed in as parameters. -/
def embed_dwt_watermark (wavedec : List ℚ → List (List ℚ))
    (waverec : List (List ℚ) → List ℚ) (audio : List ℚ) (wm : List Bool)
    (alpha : ℚ) (pn : List ℚ) : List ℚ :=
  length_normalize (waverec (embed_dwt_coeffs (wavedec audio) wm alpha pn))
    audio.length

/-- Number of librosa.stft frames for a signal of length n with the default
center=True padding: 1 + n // hop. -/
def stft_num_frames (n : ℕ) : ℕ := n / hopLength + 1

/-- Output length of librosa.istft with center=True and no length argument:
hop * (numFrames - 1). -/
def istft_length (t : ℕ) : ℕ := hopLength * (t - 1)

/-- Length of the buffer returned by _embed_spectrogram_watermark for an input
of length n: the code returns librosa.istft of the modified stft without a
length argument and without any truncation or padding. -/
def embed_spectrogram_len (n : ℕ) : ℕ := istft_length (stft_num_frames n)

/-- Interface of the global NumPy generator: np.random.seed replaces the
hidden global state by seedFn applied to the seed, and each draw of
np.random.randn advances the state with next. -/
structure PRNG where
  seedFn : ℤ → ℕ
  next : ℕ → ℚ × ℕ

/-- Draw n values from the generator state st. -/
def drawn (g : PRNG) : ℕ → ℕ → List ℚ × ℕ
  | 0, st => ([], st)
  | Nat.succ k, st =>
    let v := g.next st
    let r := drawn g k v.2
    (v.1 :: r.1, r.2)

/-- AudioWatermark._generate_pseudorandom_sequence: np.random.seed(seed)
followed by np.random.randn(length), run against an incoming hidden global
state st.  Seeding replaces st before anything is drawn. -/
def generate_pseudorandom_sequence (g : PRNG) (length : ℕ) (seed : ℤ)
    (_st : ℕ) : List ℚ × ℕ :=
  drawn g length (g.seedFn seed)

/-- First occurrences of each string, in encounter order, with explicit fuel
so the recursion is structural (fuel l.length is enough since each step
consumes the head).  This is the key order of a Python Counter built from the
list. -/
def firstOccsAux : ℕ → List String → List String
  | 0, _ => []
  | _ + 1, [] => []
  | f + 1, x :: xs => x :: firstOccsAux f (xs.filter (fun y => ¬ y = x))

/-- Keys of Counter(l) in first-encountered insertion order. -/
def firstOccs (l : List String) : List String := firstOccsAux l.length l

/-- Highest multiplicity among the keys of Counter(l). -/
def maxCount (l : List String) : ℕ :=
  ((firstOccs l).map (fun x => l.count x)).foldl max 0

/-- Counter(l).most_common(1)[0][0]: most_common stable-sorts the insertion-
ordered keys by descending count, so its head is the first-encountered key
attaining the maximal count. -/
def most_common_1 (l : List String) : String :=
  ((firstOccs l).find? (fun x => l.count x == maxCount l)).getD ""

/-- VideoWatermark._calculate_majority_vote: the winning string together with
confidence count(winner) / len(l). -/
def calculate_majority_vote (l : List String) : String × ℚ :=
  (most_common_1 l, (l.count (most_common_1 l) : ℚ) / (l.length : ℚ))

/-- Modelled from the spec: UTF-8 decoding of a byte list into a code-point
list (the spec's PayloadCodec.decode interprets the grouped bytes as UTF-8;
the repository's _binary_to_string does not, which is what claim C9 is
about).  Fuel keeps the recursion structural; fuel = list length suffices
since every step consumes at least one byte. -/
def utf8DecodeAux : ℕ → List ℕ → Option (List ℕ)
  | _, [] => some []
  | 0, _ :: _ => none
  | f + 1, b :: rest =>
    if b < 0x80 then (utf8DecodeAux f rest).map (fun t => b :: t)
    else if b < 0xC0 then none
    else if b < 0xE0 then
      match rest with
      | c1 :: rest1 =>
        if 0x80 ≤ c1 ∧ c1 < 0xC0 then
          (if 0x80 ≤ (b - 0xC0) * 0x40 + (c1 - 0x80) then
            (utf8DecodeAux f rest1).map (fun t => ((b - 0xC0) * 0x40 + (c1 - 0x80)) :: t)
          else none)
        else none
      | [] => none
    else if b < 0xF0 then
      match rest with
      | c1 :: c2 :: rest2 =>
        if (0x80 ≤ c1 ∧ c1 < 0xC0) ∧ (0x80 ≤ c2 ∧ c2 < 0xC0) then
          (if 0x800 ≤ (b - 0xE0) * 0x1000 + (c1 - 0x80) * 0x40 + (c2 - 0x80) ∧
              ¬ (0xD800 ≤ (b - 0xE0) * 0x1000 + (c1 - 0x80) * 0x40 + (c2 - 0x80) ∧
                 (b - 0xE0) * 0x1000 + (c1 - 0x80) * 0x40 + (c2 - 0x80) < 0xE000) then
            (utf8DecodeAux f rest2).map
              (fun t => ((b - 0xE0) * 0x1000 + (c1 - 0x80) * 0x40 + (c2 - 0x80)) :: t)
          else none)
        else none
      | _ => none
    else if b < 0xF8 then
      match rest with
      | c1 :: c2 :: c3 :: rest3 =>
        if (0x80 ≤ c1 ∧ c1 < 0xC0) ∧ (0x80 ≤ c2 ∧ c2 < 0xC0) ∧ (0x80 ≤ c3 ∧ c3 < 0xC0) then
          (if 0x10000 ≤ (b - 0xF0) * 0x40000 + (c1 - 0x80) * 0x1000 + (c2 - 0x80) * 0x40 + (c3 - 0x80) ∧
              (b - 0xF0) * 0x40000 + (c1 - 0x80) * 0x1000 + (c2 - 0x80) * 0x40 + (c3 - 0x80) < 0x110000 then
            (utf8DecodeAux f rest3).map
              (fun t => ((b - 0xF0) * 0x40000 + (c1 - 0x80) * 0x1000 + (c2 - 0x80) * 0x40 + (c3 - 0x80)) :: t)
          else none)
        else none
      | _ => none
    else none

/-- Modelled from the spec: UTF-8 decode of a byte list. -/
def utf8Decode (bytes : List ℕ) : Option (List ℕ) :=
  utf8DecodeAux bytes.length bytes

/-- The bytes obtained from a bit list by MSB-first groups of 8, dropping an
incomplete trailing group. -/
def bytes_of_bits (bits : List Bool) : List ℕ :=
  (List.range (bits.length / 8)).map (fun i => bitsToNat ((bits.drop (8 * i)).take 8))

/-- Modelled from the spec: PayloadCodec.decode groups the bits into bytes of
8 MSB-first, drops an incomplete trailing group, interprets the bytes as
UTF-8, and on invalid UTF-8 returns the raw bit string as a fallback
representation instead of failing. -/
def binary_to_string_spec (bits : List Bool) : String :=
  match utf8Decode (bytes_of_bits bits) with
  | some cps => String.mk (cps.map Char.ofNat)
  | none => String.mk (bits.map (fun b => if b then '1' else '0'))

/-- The audio formats accepted by AudioWatermark (self.supported_formats). -/
def supported_formats : List String := [".wav", ".flac", ".ogg"]

/-- Environment of one call of the public audio embed/extract operations.
Fields abstract the external effects: whether the input path exists, its
lowercased suffix, and the outcomes of the fallible collaborator calls
(librosa.load, the selected transform computation, soundfile write, and the
extraction computation), each of which may raise. -/
structure AudioEnv where
  fileExists : Bool
  suffix : String
  loadResult : Except Unit (List ℚ)
  processResult : Except Unit (List ℚ)
  saveResult : Except Unit Unit
  extractBits : Except Unit (List Bool)

/-- Body of AudioWatermark.embed inside its try block; an Except error is a
Python exception crossing this code. -/
def audio_embed_body (env : AudioEnv) (method : String) : Except Unit Bool :=
  if env.fileExists = false then pure false
  else if ¬ (env.suffix ∈ supported_formats) then pure false
  else do
    let _y ← env.loadResult
    if method = "dct" ∨ method = "dwt" ∨ method = "spectrogram" then do
      let _wa ← env.processResult
      let _u ← env.saveResult
      pure true
    else pure false

/-- AudioWatermark.embed: the try/except wrapper returns False on any
exception raised by the body. -/
def audio_embed (env : AudioEnv) (method : String) : Bool :=
  match audio_embed_body env method with
  | Except.ok b => b
  | Except.error _ => false

/-- Body of AudioWatermark.extract inside its try block (note: extract has no
suffix check, only the existence check). -/
def audio_extract_body (env : AudioEnv) (method : String) :
    Except Unit (Option String) :=
  if env.fileExists = false then pure none
  else do
    let _y ← env.loadResult
    if method = "dct" ∨ method = "dwt" ∨ method = "spectrogram" then do
      let bits ← env.extractBits
      pure (some (binary_to_string bits))
    else pure none

/-- AudioWatermark.extract: the try/except wrapper returns None on any
exception raised by the body. -/
def audio_extract (env : AudioEnv) (method : String) : Option String :=
  match audio_extract_body env method with
  | Except.ok r => r
  | Except.error _ => none

/-- Modelled from the spec: CoefficientBandSelector fails with
CapacityExceeded when the bit count exceeds the band size 3L/4 - L/4, and
otherwise the embedder perturbs the band as the code does.  This is the
spec-side behaviour claim C5 compares the code against. -/
def embed_dct_frame_spec (coeffs : List ℚ) (wm : List Bool) (pn : List ℚ)
    (alpha : ℚ) : Except Unit (List ℚ) :=
  if 3 * coeffs.length / 4 - coeffs.length / 4 < wm.length then Except.error ()
  else Except.ok (embed_dct_frame coeffs wm pn alpha 0)

/-- Claim C1 as stated: for every cosine-type transform pair (linear with
perfect reconstruction, of which only zero-preservation and inversion are
used), every buffer long enough to frame, every ASCII payload that fits the
capacity of the coefficient band and every carrier with nonzero entries,
embed followed by immediate detect and decode returns the payload. -/
def C1_claim : Prop :=
  ∀ (tf itf : List ℚ → List ℚ),
    (∀ x, itf (tf x) = x) →
    (∀ m, tf (List.replicate m 0) = List.replicate m 0) →
    (∀ m, itf (List.replicate m 0) = List.replicate m 0) →
    ∀ (audio : List ℚ) (s : String) (alpha : ℚ) (pn : List ℚ),
      frameLength ≤ audio.length →
      (∀ c ∈ s.data, c.toNat < 128) →
      0 < alpha →
      (string_to_binary s).length ≤
        (frame_signal audio).length * (3 * frameLength / 4 - frameLength / 4) →
      (∀ i < (string_to_binary s).length, pn.getD i 0 ≠ 0) →
      dct_roundtrip tf itf audio s alpha pn = s

/-- Claim C3 as stated: the encoder output always has 8 bits per UTF-8 byte
of the input string. -/
def C3_claim : Prop :=
  ∀ s : String, (string_to_binary s).length = 8 * s.utf8ByteSize

/-- Claim C5 as stated: band selection only touches [L/4, 3L/4), and the
embedding fails with a CapacityExceeded error whenever the bit count exceeds
the band size, i.e. the code agrees with the Except-valued spec model. -/
def C5_claim : Prop :=
  ∀ (coeffs : List ℚ) (wm : List Bool) (pn : List ℚ) (alpha : ℚ),
    (∀ j < coeffs.length,
      (j < coeffs.length / 4 ∨ 3 * coeffs.length / 4 ≤ j) →
      (embed_dct_frame coeffs wm pn alpha 0).getD j 0 = coeffs.getD j 0) ∧
    Except.ok (embed_dct_frame coeffs wm pn alpha 0) =
      embed_dct_frame_spec coeffs wm pn alpha

/-- Claim C6 as stated: every embedding method returns a buffer of the input
length. -/
def C6_claim : Prop :=
  ∀ (tf itf : List ℚ → List ℚ) (wavedec : List ℚ → List (List ℚ))
    (waverec : List (List ℚ) → List ℚ) (audio : List ℚ) (wm : List Bool)
    (pn : List ℚ) (alpha : ℚ),
    frameLength ≤ audio.length →
    (embed_dct_watermark tf itf audio wm pn alpha).length = audio.length ∧
    (embed_dwt_watermark wavedec waverec audio wm alpha pn).length = audio.length ∧
    embed_spectrogram_len audio.length = audio.length

/-- Claim C8 as stated: the wavelet embedder leaves every detail coefficient
vector (entries of the wavedec list from index 1 on) unchanged. -/
def C8_claim : Prop :=
  ∀ (coeffs : List (List ℚ)) (wm : List Bool) (alpha : ℚ) (pn : List ℚ)
    (k : ℕ), 1 ≤ k →
    (embed_dwt_coeffs coeffs wm alpha pn).getD k [] = coeffs.getD k []

/-- Claim C9 as stated: the payload decoder behaves like the spec model that
interprets the grouped bytes as UTF-8 and falls back to the raw bit string on
invalid UTF-8. -/
def C9_claim : Prop :=
  ∀ bits : List Bool, binary_to_string bits = binary_to_string_spec bits

end MediaSeal

namespace MediaSeal

theorem getD_range_map {α : Type} (n j : ℕ) (f : ℕ → α) (d : α) :
    (((List.range n).map f).getD j d) = if j < n then f j else d := by
  by_cases h : j < n
  · simp [List.getD, List.getElem?_map, List.getElem?_range, h]
  · have hn : (List.range n)[j]? = none :=
      List.getElem?_eq_none (by simpa using Nat.le_of_not_lt h)
    simp [List.getD, List.getElem?_map, hn, h]

example : (string_to_binary "A").length = 8 := by decide

example : string_to_binary "A" =
    [false, true, false, false, false, false, false, true] := by decide

example : binary_to_string [false, true, false, false, false, false, false, true] = "A" := by
  decide

example : (string_to_binary "é").length = 8 := by decide

example : String.utf8ByteSize "é" = 2 := by decide

example :
    embed_dct_frame [1, 2, 3, 4, 5, 6, 7, 8] [true] [2] (1/10) 0 =
      [1, 2, 3 + (1/10) * 3 * 2, 4, 5, 6, 7, 8] := by
  simp [embed_dct_frame, List.range_succ]

example :
    extract_frame [1, 2, -3, 4, 5, 6, 7, 8] [2] 1 0 = [false] := by
  simp [extract_frame, frameConsumed, List.range_succ]

theorem getD_take_of_lt {α : Type} (l : List α) (n i : ℕ) (d : α) (h : i < n) :
    (l.take n).getD i d = l.getD i d := by
  simp [List.getD, List.getElem?_take, h]

theorem length_normalize_length (w : List ℚ) (n : ℕ) :
    (length_normalize w n).length = n := by
  unfold length_normalize
  split_ifs with h1 h2
  · simp
    omega
  · simp
    omega
  · omega

theorem overlap_add_length (n : ℕ) (framesW : List (List ℚ)) :
    (overlap_add n framesW).length = n := by
  simp [overlap_add]

theorem drawn_fst_length (g : PRNG) (n : ℕ) :
    ∀ st, ((drawn g n st).1).length = n := by
  induction n with
  | zero => intro st; simp [drawn]
  | succ k ih => intro st; simp [drawn, ih]

/-- C2 witness helper: claim C2 holds for every bit position inside the band
consumed from one frame, both for embedding and detection. -/
theorem C2_spread_spectrum_formula (coeffs : List ℚ) (wm : List Bool)
    (pn : List ℚ) (alpha : ℚ) (start j t wmLen : ℕ) :
    (coeffs.length / 4 ≤ j →
      j < coeffs.length / 4 + frameConsumed coeffs.length wm.length start →
      (embed_dct_frame coeffs wm pn alpha start).getD j 0 =
        coeffs.getD j 0 +
          (if wm.getD (start + (j - coeffs.length / 4)) false then 1 else -1) *
            (alpha * |coeffs.getD j 0| *
              pn.getD (start + (j - coeffs.length / 4)) 0)) ∧
    (t < frameConsumed coeffs.length wmLen start →
      (extract_frame coeffs pn wmLen start).getD t false =
        decide (coeffs.getD (coeffs.length / 4 + t) 0 *
          pn.getD (start + t) 0 > 0)) := by
  constructor
  · intro h1 h2
    have hj : j < coeffs.length := by
      unfold frameConsumed at h2
      omega
    rw [embed_dct_frame, getD_range_map]
    rw [if_pos hj]
    rw [if_pos ⟨h1, by unfold frameConsumed at h2; exact h2⟩]
    split
    · ring
    · ring
  · intro ht
    rw [extract_frame, getD_range_map, if_pos ht]

/-- C2 witness: in a frame of length 8 the band is [2, 6); with a single 1
bit, carrier value 2 and alpha 1/10, coefficient 2 gets the additive
carrier-weighted update, and the sign-of-correlation test reads a 0 bit from
a negative coefficient against a positive carrier. -/
theorem C2_spread_spectrum_formula_witness :
    (embed_dct_frame [1, 2, 3, 4, 5, 6, 7, 8] [true] [2] (1/10) 0).getD 2 0 =
      ([1, 2, 3, 4, 5, 6, 7, 8] : List ℚ).getD 2 0 +
        (if [true].getD (0 + (2 - ([1, 2, 3, 4, 5, 6, 7, 8] : List ℚ).length / 4)) false
         then 1 else -1) *
          ((1/10) * |([1, 2, 3, 4, 5, 6, 7, 8] : List ℚ).getD 2 0| *
            ([2] : List ℚ).getD (0 + (2 - ([1, 2, 3, 4, 5, 6, 7, 8] : List ℚ).length / 4)) 0) ∧
    (extract_frame [1, 2, -3, 4, 5, 6, 7, 8] [2] 1 0).getD 0 false =
      decide (([1, 2, -3, 4, 5, 6, 7, 8] : List ℚ).getD
        (([1, 2, -3, 4, 5, 6, 7, 8] : List ℚ).length / 4 + 0) 0 *
        ([2] : List ℚ).getD (0 + 0) 0 > 0) :=
  ⟨(C2_spread_spectrum_formula [1, 2, 3, 4, 5, 6, 7, 8] [true] [2] (1/10) 0 2 0 1).1
      (by decide) (by decide),
    (C2_spread_spectrum_formula [1, 2, -3, 4, 5, 6, 7, 8] [true] [2] (1/10) 0 2 0 1).2
      (by decide)⟩

/-- C3 counterexample: the encoder emits 8 bits for the one-character string
made of U+00E9, whose UTF-8 encoding has 2 bytes, so the output length is not
8 times the UTF-8 byte length. -/
theorem C3_counterexample : ¬ C3_claim := by
  intro h
  have h1 := h "é"
  revert h1
  decide

/-- C3 amended: the encoder emits, per character, the binary digits of its
code point padded to a minimum of 8 bits, so for strings whose characters all
have code points below 256 the output has exactly 8 bits per character (and
the encoder is a total function). -/
theorem C3_amended_bits_per_char (s : String) (h : ∀ c ∈ s.data, c.toNat < 256) :
    (string_to_binary s).length = 8 * s.length := by
  have h8 : ∀ n < 256, (format08b n).length = 8 := by decide
  unfold string_to_binary
  rw [List.length_flatten, List.map_map]
  have hconst : s.data.map (List.length ∘ fun c => format08b c.toNat) =
      s.data.map (fun _ => 8) :=
    List.map_congr_left (fun c hc => h8 c.toNat (h c hc))
  rw [hconst, List.map_const', List.sum_replicate, smul_eq_mul]
  have : s.length = s.data.length := rfl
  omega

theorem C3_amended_bits_per_char_witness :
    (string_to_binary "AB").length = 8 * "AB".length :=
  C3_amended_bits_per_char "AB" (by decide)

/-- C5 counterexample: a frame of length 8 has band capacity 4; embedding 5
bits does not fail, while the spec model raises CapacityExceeded. -/
theorem C5_counterexample : ¬ C5_claim := by
  intro h
  have h2 := (h [1, 1, 1, 1, 1, 1, 1, 1] [true, true, true, true, true]
    [1, 1, 1, 1, 1] 1).2
  rw [embed_dct_frame_spec, if_pos (by decide)] at h2
  exact Except.noConfusion h2

/-- C5 amended: the embedding loop touches only indices in the middle band
[L/4, 3L/4), and when the bit sequence exceeds the band size 3L/4 - L/4 it
does not fail: the frame consumes only the first 3L/4 - L/4 bits and the rest
are left for later frames (silently dropped if none remain). -/
theorem C5_amended_band_truncation (coeffs : List ℚ) (wm : List Bool)
    (pn : List ℚ) (alpha : ℚ) :
    (∀ j < coeffs.length,
      (j < coeffs.length / 4 ∨ 3 * coeffs.length / 4 ≤ j) →
      (embed_dct_frame coeffs wm pn alpha 0).getD j 0 = coeffs.getD j 0) ∧
    embed_dct_frame coeffs wm pn alpha 0 =
      embed_dct_frame coeffs
        (wm.take (3 * coeffs.length / 4 - coeffs.length / 4)) pn alpha 0 := by
  constructor
  · intro j hj hside
    rw [embed_dct_frame, getD_range_map, if_pos hj]
    rw [if_neg (by omega)]
  · unfold embed_dct_frame
    apply List.map_congr_left
    intro j hj
    simp only [List.mem_range] at hj
    simp only [List.length_take, Nat.sub_zero]
    rw [← min_assoc, min_self]
    by_cases hband : coeffs.length / 4 ≤ j ∧
        j < coeffs.length / 4 +
          min (3 * coeffs.length / 4 - coeffs.length / 4) wm.length
    · rw [if_pos hband, if_pos hband]
      have hidx : 0 + (j - coeffs.length / 4) <
          3 * coeffs.length / 4 - coeffs.length / 4 := by omega
      rw [getD_take_of_lt _ _ _ _ hidx]
    · rw [if_neg hband, if_neg hband]

theorem C5_amended_band_truncation_witness :
    embed_dct_frame [1, 1, 1, 1, 1, 1, 1, 1] [true, true, true, true, true]
        [1, 1, 1, 1, 1] 1 0 =
      embed_dct_frame [1, 1, 1, 1, 1, 1, 1, 1]
        ([true, true, true, true, true].take
          (3 * ([1, 1, 1, 1, 1, 1, 1, 1] : List ℚ).length / 4 -
            ([1, 1, 1, 1, 1, 1, 1, 1] : List ℚ).length / 4)) [1, 1, 1, 1, 1] 1 0 :=
  (C5_amended_band_truncation [1, 1, 1, 1, 1, 1, 1, 1]
    [true, true, true, true, true] [1, 1, 1, 1, 1] 1).2

/-- C6 counterexample: for the 22050-sample buffer the spectrogram method
returns hop * floor(n/hop) = 22016 samples, not 22050, so not every embedding
method preserves the buffer length. -/
theorem C6_counterexample : ¬ C6_claim := by
  intro h
  have h2 := (h id id (fun _ => []) (fun _ => []) (List.replicate 22050 0)
    [] [] 0 (by rw [List.length_replicate]; norm_num [frameLength])).2.2
  simp only [List.length_replicate] at h2
  rw [embed_spectrogram_len, istft_length, stft_num_frames, hopLength] at h2
  omega

/-- C6 amended: the dct and dwt embedding paths return a buffer of exactly
the input length (the dwt path by explicit truncation or zero-padding), while
the spectrogram path returns hop * floor(n/hop) samples, which equals n only
when n is a multiple of the hop length 512. -/
theorem C6_amended_lengths (tf itf : List ℚ → List ℚ)
    (wavedec : List ℚ → List (List ℚ)) (waverec : List (List ℚ) → List ℚ)
    (audio : List ℚ) (wm : List Bool) (pn : List ℚ) (alpha : ℚ) (n : ℕ)
    (_h : frameLength ≤ audio.length) :
    (embed_dct_watermark tf itf audio wm pn alpha).length = audio.length ∧
    (embed_dwt_watermark wavedec waverec audio wm alpha pn).length =
      audio.length ∧
    embed_spectrogram_len n = hopLength * (n / hopLength) := by
  refine ⟨overlap_add_length _ _, ?_, ?_⟩
  · rw [embed_dwt_watermark]
    exact length_normalize_length _ _
  · rw [embed_spectrogram_len, istft_length, stft_num_frames]
    simp

theorem C6_amended_lengths_witness :
    embed_spectrogram_len 22050 = hopLength * (22050 / hopLength) :=
  (C6_amended_lengths id id (fun _ => []) (fun _ => [])
    (List.replicate 2048 0) [] [] 0 22050
    (by rw [List.length_replicate]; norm_num [frameLength])).2.2

/-- C7: the pseudorandom carrier is a pure function of (length, seed): the
result is independent of the incoming hidden global generator state (seeding
replaces it), two consecutive calls with the same arguments return the same
sequence, and the sequence has the requested length. -/
theorem C7_carrier_determinism (g : PRNG) (n : ℕ) (seed : ℤ) (st1 st2 : ℕ) :
    (generate_pseudorandom_sequence g n seed st1).1 =
      (generate_pseudorandom_sequence g n seed st2).1 ∧
    (generate_pseudorandom_sequence g n seed
        ((generate_pseudorandom_sequence g n seed st1).2)).1 =
      (generate_pseudorandom_sequence g n seed st1).1 ∧
    ((generate_pseudorandom_sequence g n seed st1).1).length = n :=
  ⟨rfl, rfl, drawn_fst_length g n (g.seedFn seed)⟩

/-- C8 counterexample: with wavedec output [[1], [1], [1]], one 1 bit, alpha 1
and carrier [1], the vector at index 1 (the coarsest detail vector cD) is
changed from [1] to [2], so the detail vectors are not all passed through
unchanged. -/
theorem C8_counterexample : ¬ C8_claim := by
  intro h
  have h1 := h [[1], [1], [1]] [true] 1 [1] 1 (le_refl 1)
  rw [embed_dwt_coeffs] at h1
  simp [dwt_modify, List.range_succ] at h1

/-- C8 amended: the wavelet embedder writes only into entry 1 of the wavedec
coefficient list, which is the coarsest detail vector cD4 (pywt.wavedec
returns [cA4, cD4, cD3, cD2, cD1]); the approximation vector at index 0 and
all other detail vectors are passed through unchanged. -/
theorem C8_amended_detail_write (coeffs : List (List ℚ)) (wm : List Bool)
    (alpha : ℚ) (pn : List ℚ) :
    (∀ k, k ≠ 1 →
      (embed_dwt_coeffs coeffs wm alpha pn).getD k [] = coeffs.getD k []) ∧
    (embed_dwt_coeffs coeffs wm alpha pn).getD 1 [] =
      dwt_modify (coeffs.getD 1 []) wm alpha pn := by
  constructor
  · intro k hk
    rw [embed_dwt_coeffs]
    simp [List.getD, List.getElem?_set_ne (Ne.symm hk)]
  · match coeffs with
    | [] => simp [embed_dwt_coeffs, List.getD, dwt_modify]
    | [a] => simp [embed_dwt_coeffs, List.getD, dwt_modify]
    | a :: b :: t => simp [embed_dwt_coeffs, List.getD]

theorem C8_amended_detail_write_witness :
    (embed_dwt_coeffs [[1], [1], [1]] [true] 1 [1]).getD 0 [] =
      ([[1], [1], [1]] : List (List ℚ)).getD 0 [] :=
  (C8_amended_detail_write [[1], [1], [1]] [true] 1 [1]).1 0 (by decide)

/-- C10: the public audio embed operation returns a Bool that is false on
every failure path (missing file, unsupported suffix, unknown method, any
exception in the body), the public extract operation returns an Option that
is none on every failure path, and neither lets an exception escape (the
wrapper maps any body error to false or none). -/
theorem C10_total_failure_paths (env : AudioEnv) (method : String) :
    (env.fileExists = false →
      audio_embed env method = false ∧ audio_extract env method = none) ∧
    (env.suffix ∉ supported_formats → audio_embed env method = false) ∧
    (¬ (method = "dct" ∨ method = "dwt" ∨ method = "spectrogram") →
      audio_embed env method = false ∧ audio_extract env method = none) ∧
    (∀ e, audio_embed_body env method = Except.error e →
      audio_embed env method = false) ∧
    (∀ e, audio_extract_body env method = Except.error e →
      audio_extract env method = none) ∧
    (audio_embed env method = false ∨ audio_embed env method = true) ∧
    (audio_extract env method = none ∨
      ∃ s, audio_extract env method = some s) := by
  refine ⟨?_, ?_, ?_, ?_, ?_, ?_, ?_⟩
  · intro hf
    constructor
    · simp [audio_embed, audio_embed_body, hf, pure, Except.pure]
    · simp [audio_extract, audio_extract_body, hf, pure, Except.pure]
  · intro hs
    cases hf : env.fileExists
    · simp [audio_embed, audio_embed_body, hf, pure, Except.pure]
    · cases hl : env.loadResult
      · simp [audio_embed, audio_embed_body, hf, hs, hl, pure, Except.pure,
          bind, Except.bind]
      · simp [audio_embed, audio_embed_body, hf, hs, hl, pure, Except.pure,
          bind, Except.bind]
  · intro hm
    constructor
    · cases hf : env.fileExists
      · simp [audio_embed, audio_embed_body, hf, pure, Except.pure]
      · by_cases hs : env.suffix ∈ supported_formats
        · cases hl : env.loadResult
          · simp [audio_embed, audio_embed_body, hf, hs, hl, pure, Except.pure,
              bind, Except.bind]
          · simp [audio_embed, audio_embed_body, hf, hs, hl, hm, pure,
              Except.pure, bind, Except.bind]
        · simp [audio_embed, audio_embed_body, hf, hs, pure, Except.pure]
    · cases hf : env.fileExists
      · simp [audio_extract, audio_extract_body, hf, pure, Except.pure]
      · cases hl : env.loadResult
        · simp [audio_extract, audio_extract_body, hf, hl, pure, Except.pure,
            bind, Except.bind]
        · simp [audio_extract, audio_extract_body, hf, hl, hm, pure,
            Except.pure, bind, Except.bind]
  · intro e he
    simp [audio_embed, he]
  · intro e he
    simp [audio_extract, he]
  · cases hb : audio_embed env method
    · exact Or.inl rfl
    · exact Or.inr rfl
  · cases hx : audio_extract env method
    · exact Or.inl rfl
    · exact Or.inr ⟨_, rfl⟩

theorem truncate8_length (bits : List Bool) :
    (truncate8 bits).length = bits.length - bits.length % 8 := by
  simp [truncate8]

theorem binary_to_string_length (bits : List Bool) :
    (binary_to_string bits).length = bits.length / 8 := by
  have h1 : (binary_to_string bits).length = (truncate8 bits).length / 8 := by
    simp [binary_to_string, String.length]
  rw [h1, truncate8_length]
  omega

theorem getD_replicate {α : Type} (n i : ℕ) (a d : α) :
    (List.replicate n a).getD i d = if i < n then a else d := by
  by_cases h : i < n
  · simp [List.getD, List.getElem?_replicate, h]
  · have hn : (List.replicate n a)[i]? = none :=
      List.getElem?_eq_none (by simpa using Nat.le_of_not_lt h)
    simp [List.getD, hn, h]

theorem embed_dct_frame_zero (L : ℕ) (wm : List Bool) (pn : List ℚ)
    (alpha : ℚ) (start : ℕ) :
    embed_dct_frame (List.replicate L 0) wm pn alpha start =
      List.replicate L 0 := by
  unfold embed_dct_frame
  rw [List.length_replicate]
  apply List.eq_replicate_iff.mpr
  refine ⟨by simp, ?_⟩
  intro b hb
  obtain ⟨j, hj, hbj⟩ := List.mem_map.mp hb
  rw [← hbj]
  simp [getD_replicate]

theorem frame_signal_replicate_zero :
    frame_signal (List.replicate 2048 0) = [List.replicate 2048 (0 : ℚ)] := by
  unfold frame_signal
  rw [List.length_replicate]
  rw [show (2048 - frameLength) / hopLength + 1 = 1 from by
    norm_num [frameLength, hopLength]]
  rw [show List.range 1 = [0] from rfl, List.map_cons, List.map_nil]
  rw [Nat.zero_mul, List.drop_zero, List.take_replicate]
  rw [show min frameLength 2048 = 2048 from by norm_num [frameLength]]

theorem process_frames_zero (tf itf : List ℚ → List ℚ)
    (hz : ∀ m, tf (List.replicate m 0) = List.replicate m 0)
    (hz2 : ∀ m, itf (List.replicate m 0) = List.replicate m 0)
    (wm : List Bool) (pn : List ℚ) (alpha : ℚ) :
    process_frames tf itf [List.replicate 2048 0] wm pn alpha =
      [List.replicate 2048 0] := by
  unfold process_frames
  simp only [List.foldl]
  by_cases h : wm.length ≤ 0
  · rw [if_pos h]
    rfl
  · rw [if_neg h, hz 2048, embed_dct_frame_zero, hz2 2048]
    rfl

theorem overlap_add_single_zero (n : ℕ) :
    overlap_add n [List.replicate 2048 (0 : ℚ)] = List.replicate n 0 := by
  unfold overlap_add
  apply List.eq_replicate_iff.mpr
  refine ⟨by rw [List.length_map, List.length_range], ?_⟩
  intro b hb
  obtain ⟨t, ht, hbt⟩ := List.mem_map.mp hb
  rw [← hbt]
  rw [show List.range ([List.replicate 2048 (0 : ℚ)].length) = [0] from rfl]
  rw [List.map_cons, List.map_nil, List.sum_cons, List.sum_nil, add_zero]
  rw [show ([List.replicate 2048 (0 : ℚ)].getD 0 []) =
    List.replicate 2048 (0 : ℚ) from rfl]
  rw [List.length_replicate]
  split_ifs with hc
  · rw [getD_replicate]
    split_ifs <;> rfl
  · rfl

theorem extract_frame_zero (L wmLen start : ℕ) (pn : List ℚ) :
    extract_frame (List.replicate L 0) pn wmLen start =
      List.replicate (frameConsumed L wmLen start) false := by
  unfold extract_frame
  rw [List.length_replicate]
  apply List.eq_replicate_iff.mpr
  refine ⟨by simp, ?_⟩
  intro b hb
  obtain ⟨t, ht, hbt⟩ := List.mem_map.mp hb
  rw [← hbt]
  simp [getD_replicate]

theorem extract_bits_raw_zero (tf : List ℚ → List ℚ)
    (hz : ∀ m, tf (List.replicate m 0) = List.replicate m 0)
    (wmLen : ℕ) (pn : List ℚ) :
    extract_bits_raw tf (List.replicate 2048 0) wmLen pn =
      List.replicate (frameConsumed 2048 wmLen 0) false := by
  unfold extract_bits_raw
  rw [frame_signal_replicate_zero]
  simp only [List.foldl]
  by_cases h : wmLen = 0
  · subst h
    rw [if_pos (Nat.zero_le _)]
    rw [show frameConsumed 2048 0 0 = 0 from by unfold frameConsumed; omega]
    rfl
  · rw [if_neg (by intro hc; exact h (Nat.le_zero.mp hc))]
    rw [hz 2048, extract_frame_zero]
    rfl

theorem extract_dct_zero (tf : List ℚ → List ℚ)
    (hz : ∀ m, tf (List.replicate m 0) = List.replicate m 0)
    (wmLen : ℕ) (pn : List ℚ) :
    extract_dct_watermark tf (List.replicate 2048 0) wmLen pn =
      List.replicate wmLen false := by
  rw [extract_dct_watermark, extract_bits_raw_zero tf hz wmLen pn,
    List.length_replicate, ← List.replicate_add]
  congr 1
  unfold frameConsumed
  omega

theorem dct_roundtrip_zero (tf itf : List ℚ → List ℚ)
    (hz : ∀ m, tf (List.replicate m 0) = List.replicate m 0)
    (hz2 : ∀ m, itf (List.replicate m 0) = List.replicate m 0)
    (s : String) (alpha : ℚ) (pn : List ℚ) :
    dct_roundtrip tf itf (List.replicate 2048 0) s alpha pn =
      binary_to_string (List.replicate (8 * s.length) false) := by
  rw [dct_roundtrip]
  have hemb : embed_dct_watermark tf itf (List.replicate 2048 0)
      (string_to_binary s) pn alpha = List.replicate 2048 0 := by
    rw [embed_dct_watermark, frame_signal_replicate_zero,
      process_frames_zero tf itf hz hz2, List.length_replicate,
      overlap_add_single_zero]
  rw [hemb, extract_dct_zero tf hz]

theorem extract_foldl_length_le (tf : List ℚ → List ℚ) (pn : List ℚ)
    (wmLen : ℕ) :
    ∀ (frames : List (List ℚ)) (acc : List Bool), acc.length ≤ wmLen →
      (frames.foldl (fun acc frame =>
        if wmLen ≤ acc.length then acc
        else acc ++ extract_frame (tf frame) pn wmLen acc.length) acc).length ≤
        wmLen := by
  intro frames
  induction frames with
  | nil => intro acc h; simpa using h
  | cons f fs ih =>
    intro acc h
    rw [List.foldl_cons]
    by_cases hc : wmLen ≤ acc.length
    · rw [if_pos hc]
      exact ih acc h
    · rw [if_neg hc]
      apply ih
      rw [List.length_append]
      have hlen : (extract_frame (tf f) pn wmLen acc.length).length =
          frameConsumed (tf f).length wmLen acc.length := by
        simp [extract_frame]
      rw [hlen]
      unfold frameConsumed
      omega

theorem extract_dct_watermark_length (tf : List ℚ → List ℚ) (audio : List ℚ)
    (wmLen : ℕ) (pn : List ℚ) :
    (extract_dct_watermark tf audio wmLen pn).length = wmLen := by
  have h : (extract_bits_raw tf audio wmLen pn).length ≤ wmLen :=
    extract_foldl_length_le tf pn wmLen (frame_signal audio) [] (by simp)
  rw [extract_dct_watermark, List.length_append, List.length_replicate]
  omega

/-- C1 counterexample: on the all-zero 2048-sample buffer every DCT
coefficient is zero, the multiplicative spread-spectrum perturbation
alpha*|c|*carrier vanishes, every correlation is zero and every extracted bit
is 0, so the round trip returns the NUL character instead of the embedded
ASCII payload A, for any transform pair satisfying the cosine contract (the
real scipy dct/idct are linear and hence zero-preserving). -/
theorem C1_counterexample : ¬ C1_claim := by
  intro h
  have h1 := h id id (fun x => rfl) (fun m => rfl) (fun m => rfl)
    (List.replicate 2048 0) "A" (1/10) (List.replicate 8 1)
    (by rw [List.length_replicate]; exact Nat.le.refl)
    (by decide)
    (by norm_num)
    (by rw [frame_signal_replicate_zero]; decide)
    (by
      intro i hi
      have hi8 : i < 8 := by
        have hlen : (string_to_binary "A").length = 8 := by decide
        omega
      rw [getD_replicate, if_pos hi8]
      norm_num)
  rw [dct_roundtrip_zero id id (fun m => rfl) (fun m => rfl) "A" (1/10)
    (List.replicate 8 1)] at h1
  revert h1
  decide

/-- C1 amended: the embed-then-immediately-detect-and-decode round trip
always produces a string of exactly len(s) characters (the extractor always
yields 8*len(s) bits and the decoder one character per 8 bits), but the
string need not equal s: the sign-of-correlation test depends on the buffer
contents, and on an all-zero buffer it decodes every bit as 0. -/
theorem C1_amended_length (tf itf : List ℚ → List ℚ) (audio : List ℚ)
    (s : String) (alpha : ℚ) (pn : List ℚ)
    (_h : frameLength ≤ audio.length) :
    (dct_roundtrip tf itf audio s alpha pn).length = s.length := by
  rw [dct_roundtrip, binary_to_string_length, extract_dct_watermark_length]
  omega

theorem C1_amended_length_witness :
    (dct_roundtrip id id (List.replicate 2048 0) "A" (1/10)
      (List.replicate 8 1)).length = "A".length :=
  C1_amended_length id id (List.replicate 2048 0) "A" (1/10)
    (List.replicate 8 1) (by rw [List.length_replicate]; exact Nat.le.refl)

theorem foldl_max_le_self (ns : List ℕ) : ∀ a : ℕ, a ≤ ns.foldl max a := by
  induction ns with
  | nil => intro a; exact le_refl a
  | cons n t ih => intro a; exact le_trans (le_max_left a n) (ih (max a n))

theorem foldl_max_le_mem (ns : List ℕ) :
    ∀ (a x : ℕ), x ∈ ns → x ≤ ns.foldl max a := by
  induction ns with
  | nil => intro a x hx; cases hx
  | cons n t ih =>
    intro a x hx
    rcases List.mem_cons.mp hx with h | h
    · subst h
      exact le_trans (le_max_right a x) (foldl_max_le_self t (max a x))
    · exact ih (max a n) x h

theorem foldl_max_attained (ns : List ℕ) :
    ∀ a : ℕ, ns.foldl max a = a ∨ ns.foldl max a ∈ ns := by
  induction ns with
  | nil => intro a; exact Or.inl rfl
  | cons n t ih =>
    intro a
    rcases ih (max a n) with h | h
    · rcases Nat.le_total a n with hle | hle
      · right
        rw [List.foldl_cons, h, max_eq_right hle]
        exact List.mem_cons_self n t
      · left
        rw [List.foldl_cons, h, max_eq_left hle]
    · right
      exact List.mem_cons_of_mem n h

theorem firstOccsAux_mem : ∀ (f : ℕ) (l : List String) (x : String),
    l.length ≤ f → (x ∈ firstOccsAux f l ↔ x ∈ l) := by
  intro f
  induction f with
  | zero =>
    intro l x h
    have hnil : l = [] := List.eq_nil_of_length_eq_zero (Nat.le_zero.mp h)
    subst hnil
    simp [firstOccsAux]
  | succ k ih =>
    intro l x h
    cases l with
    | nil => simp [firstOccsAux]
    | cons a xs =>
      rw [firstOccsAux]
      by_cases hxa : x = a
      · subst hxa
        simp
      · have hlen : (xs.filter (fun y => ¬ y = a)).length ≤ k := by
          have h1 := List.length_filter_le (fun y => decide (¬ y = a)) xs
          have h2 : xs.length ≤ k := by
            simp only [List.length_cons] at h
            omega
          omega
        simp only [List.mem_cons]
        constructor
        · intro hmem
          rcases hmem with h1 | h1
          · exact absurd h1 hxa
          · have h2 := (ih _ x hlen).mp h1
            rcases List.mem_filter.mp h2 with ⟨h3, _⟩
            exact Or.inr h3
        · intro hmem
          rcases hmem with h1 | h1
          · exact absurd h1 hxa
          · right
            apply (ih _ x hlen).mpr
            apply List.mem_filter.mpr
            exact ⟨h1, by simpa using hxa⟩

theorem find?_decomp {α : Type} (p : α → Bool) :
    ∀ (l : List α) (w : α), l.find? p = some w →
      ∃ pre post, l = pre ++ w :: post ∧ ∀ x ∈ pre, p x = false := by
  intro l
  induction l with
  | nil => intro w hw; cases hw
  | cons a t ih =>
    intro w hw
    by_cases hpa : p a = true
    · rw [List.find?_cons_of_pos _ hpa] at hw
      injection hw with hw
      subst hw
      exact ⟨[], t, rfl, by intro x hx; cases hx⟩
    · rw [List.find?_cons_of_neg _ (by simpa using hpa)] at hw
      obtain ⟨pre, post, heq, hpre⟩ := ih w hw
      refine ⟨a :: pre, post, by rw [heq, List.cons_append], ?_⟩
      intro x hx
      rcases List.mem_cons.mp hx with h1 | h1
      · subst h1
        simpa using hpa
      · exact hpre x h1

/-- C4: for every non-empty list of extracted strings the aggregator returns
a string occurring in the list whose count is maximal, with every key
encountered before it in first-occurrence order having a strictly smaller
count (so count ties are broken by first-encountered insertion order), and
confidence count(winner)/total; in particular on [AB, AB, AB, XY] it
returns AB with confidence 3/4. -/
theorem C4_majority_vote (l : List String) (hl : l ≠ []) :
    most_common_1 l ∈ l ∧
    (∀ x ∈ l, l.count x ≤ l.count (most_common_1 l)) ∧
    (∃ pre post, firstOccs l = pre ++ most_common_1 l :: post ∧
      ∀ x ∈ pre, l.count x < l.count (most_common_1 l)) ∧
    (calculate_majority_vote l).2 =
      (l.count (most_common_1 l) : ℚ) / (l.length : ℚ) ∧
    calculate_majority_vote ["AB", "AB", "AB", "XY"] = ("AB", 3/4) := by
  have hmemiff : ∀ x, x ∈ firstOccs l ↔ x ∈ l :=
    fun x => firstOccsAux_mem l.length l x (le_refl _)
  have hattain : ∃ x ∈ firstOccs l, l.count x = maxCount l := by
    rcases foldl_max_attained ((firstOccs l).map (fun x => l.count x)) 0 with h0 | hmem
    · cases l with
      | nil => exact absurd rfl hl
      | cons hd tl =>
        exfalso
        have hhd : hd ∈ firstOccs (hd :: tl) :=
          (hmemiff hd).mpr (List.mem_cons_self hd tl)
        have hle : (hd :: tl).count hd ≤ maxCount (hd :: tl) :=
          foldl_max_le_mem _ 0 _ (List.mem_map.mpr ⟨hd, hhd, rfl⟩)
        have hpos : 0 < (hd :: tl).count hd :=
          List.count_pos_iff.mpr (List.mem_cons_self hd tl)
        have hz : maxCount (hd :: tl) = 0 := h0
        omega
    · obtain ⟨x, hx, hcx⟩ := List.mem_map.mp hmem
      exact ⟨x, hx, hcx⟩
  obtain ⟨w0, hw0mem, hw0cnt⟩ := hattain
  have hsome : ((firstOccs l).find? (fun x => l.count x == maxCount l)).isSome := by
    rw [List.find?_isSome]
    exact ⟨w0, hw0mem, by simpa using hw0cnt⟩
  obtain ⟨w, hw⟩ := Option.isSome_iff_exists.mp hsome
  have hmc : most_common_1 l = w := by
    rw [most_common_1, hw]
    rfl
  have hpw : l.count w = maxCount l := by
    have h1 := List.find?_some hw
    simpa using h1
  have hwmem : w ∈ l := (hmemiff w).mp (List.mem_of_find?_eq_some hw)
  refine ⟨?_, ?_, ?_, rfl, ?_⟩
  · rw [hmc]
    exact hwmem
  · intro x hx
    rw [hmc, hpw]
    exact foldl_max_le_mem _ 0 _ (List.mem_map.mpr ⟨x, (hmemiff x).mpr hx, rfl⟩)
  · obtain ⟨pre, post, heq, hpre⟩ := find?_decomp _ (firstOccs l) w hw
    refine ⟨pre, post, by rw [hmc]; exact heq, ?_⟩
    intro x hxpre
    have hxl : x ∈ l := (hmemiff x).mp (by rw [heq]; exact List.mem_append_left _ hxpre)
    have hle : l.count x ≤ maxCount l :=
      foldl_max_le_mem _ 0 _ (List.mem_map.mpr ⟨x, (hmemiff x).mpr hxl, rfl⟩)
    have hne : l.count x ≠ maxCount l := by
      have h1 := hpre x hxpre
      simpa using h1
    rw [hmc, hpw]
    omega
  · have hval : most_common_1 ["AB", "AB", "AB", "XY"] = "AB" := by decide
    have hcnt : (["AB", "AB", "AB", "XY"] : List String).count "AB" = 3 := by decide
    rw [calculate_majority_vote, hval, hcnt]
    norm_num

theorem C4_majority_vote_witness :
    calculate_majority_vote ["AB", "AB", "AB", "XY"] = ("AB", 3/4) :=
  (C4_majority_vote ["AB", "AB", "AB", "XY"] (by decide)).2.2.2.2

theorem truncate8_chunk (bits : List Bool) (i : ℕ) (h : i < bits.length / 8) :
    ((truncate8 bits).drop (8 * i)).take 8 = (bits.drop (8 * i)).take 8 := by
  apply List.ext_getElem?
  intro j
  by_cases hj : j < 8
  · rw [List.getElem?_take, List.getElem?_take, if_pos hj, if_pos hj,
      List.getElem?_drop, List.getElem?_drop]
    have hidx : 8 * i + j < bits.length - bits.length % 8 := by omega
    rw [truncate8, List.getElem?_take, if_pos hidx]
  · rw [List.getElem?_take, List.getElem?_take, if_neg hj, if_neg hj]

/-- C9 counterexample: the 8 bits of the byte 0xC3 are not valid UTF-8, so
the spec decoder returns the raw bit string 11000011, while the code returns
chr(195), a single character. -/
theorem C9_counterexample : ¬ C9_claim := by
  intro h
  have h1 := h [true, true, false, false, false, false, true, true]
  revert h1
  decide

/-- C9 amended: the decoder groups the bits into 8-bit groups MSB-first and
drops an incomplete trailing group, but does not interpret the bytes as
UTF-8 and has no raw-bit-string fallback: it maps every byte directly to the
code point of the same value (chr), so it never fails; the output has one
character per complete 8-bit group and is unchanged by dropping the
incomplete trailing group. -/
theorem C9_amended_latin1_decode (bits : List Bool) :
    (binary_to_string bits).length = bits.length / 8 ∧
    (∀ i, i < bits.length / 8 →
      (binary_to_string bits).data.getD i (Char.ofNat 0) =
        Char.ofNat (bitsToNat ((bits.drop (8 * i)).take 8))) ∧
    binary_to_string bits = binary_to_string (truncate8 bits) := by
  refine ⟨binary_to_string_length bits, ?_, ?_⟩
  · intro i hi
    have hdata : (binary_to_string bits).data =
        (List.range ((truncate8 bits).length / 8)).map
          (fun i => Char.ofNat (bitsToNat (((truncate8 bits).drop (8 * i)).take 8))) := rfl
    rw [hdata, getD_range_map]
    rw [if_pos (by rw [truncate8_length]; omega)]
    rw [truncate8_chunk bits i hi]
  · have hT : (truncate8 bits).length = bits.length - bits.length % 8 :=
      truncate8_length bits
    have hmod : (truncate8 bits).length % 8 = 0 := by omega
    have ht : truncate8 (truncate8 bits) = truncate8 bits := by
      show (truncate8 bits).take
        ((truncate8 bits).length - (truncate8 bits).length % 8) = truncate8 bits
      rw [hmod, Nat.sub_zero, List.take_length]
    rw [binary_to_string, binary_to_string, ht]

theorem C9_amended_latin1_decode_witness :
    (binary_to_string [true, false, false, false, false, false, false, true,
        true]).data.getD 0 (Char.ofNat 0) =
      Char.ofNat (bitsToNat (([true, false, false, false, false, false, false,
        true, true].drop (8 * 0)).take 8)) :=
  (C9_amended_latin1_decode [true, false, false, false, false, false, false,
    true, true]).2.1 0 (by decide)

theorem C10_total_failure_paths_witness :
    audio_embed ⟨false, ".wav", Except.ok [], Except.ok [], Except.ok (),
        Except.ok []⟩ "dct" = false ∧
    audio_extract ⟨false, ".wav", Except.ok [], Except.ok [], Except.ok (),
        Except.ok []⟩ "dct" = none :=
  (C10_total_failure_paths ⟨false, ".wav", Except.ok [], Except.ok [],
    Except.ok (), Except.ok []⟩ "dct").1 rfl

end MediaSeal
